import Mathlib

/-!
# Verification of the interactive homography tool

Shallow embedding of `interactive_homography.py`: an interactive session in
which the user clicks four corners on a half-resolution preview image, the
clicks are mapped back to source-image coordinates, and the quadrilateral is
rectified through a perspective transform.

Images are modelled as total pixel maps, integer pixel coordinates as `ℤ`/`ℕ`,
Python floats as exact numbers (`ℚ` for the matrix algebra, `ℝ` for the
Euclidean edge lengths), and Python exceptions as an explicit error type.
-/

/-- A BGR pixel value, as in OpenCV. -/
abbrev Pixel : Type := ℕ × ℕ × ℕ

/-- An image: a total assignment of pixels to integer coordinates `(x, y)`. -/
abbrev Img : Type := ℤ → ℤ → Pixel

/-- Black / zero fill value. -/
def black : Pixel := (0, 0, 0)

/-- Green marker colour `(0, 255, 0)` used for the click circles. -/
def green : Pixel := (0, 255, 0)

/-- Red colour `(0, 0, 255)` used for the connecting line segments. -/
def red : Pixel := (0, 0, 255)

/-- Blue colour `(255, 0, 0)` used for the numeric labels. -/
def blue : Pixel := (255, 0, 0)

/-- Python `int(q)` on a rational: truncation toward zero. -/
def pyInt (q : ℚ) : ℤ := if 0 ≤ q then ⌊q⌋ else -⌊-q⌋

/-- Modelled from the spec: `cv2.circle(img, (x, y), 5, colour, -1)` draws a
filled disc of the given radius at the click position (the exact rasterisation
of OpenCV is not part of the repository; only which buffer is drawn on
matters). -/
def cvCircle (img : Img) (cx cy : ℤ) (r : ℕ) (col : Pixel) : Img :=
  fun i j => if (i - cx) ^ 2 + (j - cy) ^ 2 ≤ (r : ℤ) ^ 2 then col else img i j

/-- Modelled from the spec: `cv2.line` paints the pixels of the segment from
`p` to `q` (collinear with the segment and between its endpoints). -/
def cvLine (img : Img) (p q : ℤ × ℤ) (col : Pixel) : Img :=
  fun i j =>
    if (q.1 - p.1) * (j - p.2) - (q.2 - p.2) * (i - p.1) = 0 ∧
        0 ≤ (q.1 - p.1) * (i - p.1) + (q.2 - p.2) * (j - p.2) ∧
        (q.1 - p.1) * (i - p.1) + (q.2 - p.2) * (j - p.2) ≤
          (q.1 - p.1) ^ 2 + (q.2 - p.2) ^ 2
    then col else img i j

/-- Modelled from the spec: `cv2.putText` draws the 1-based index label near
the click; modelled as marking the anchor pixel. -/
def cvPutText (img : Img) (n : ℕ) (x y : ℤ) (col : Pixel) : Img :=
  fun i j => if i = x ∧ j = y then (col.1 + n, col.2.1, col.2.2) else img i j

/-- Modelled from the spec: `cv2.resize` to the half-size preview, sampling
the source at doubled coordinates. -/
def cvResize (img : Img) : Img := fun i j => img (2 * i) (2 * j)

/-- The error taxonomy of the tool (Python raises `ValueError` / `cv2.error`;
the spec names them `ImageLoadError`, `IncompleteSelectionError`,
`DegenerateQuadrilateralError`). -/
inductive Err : Type
  | imageLoad : Err
  | incompleteSelection : Err
  | degenerateQuadrilateral : Err
deriving DecidableEq

/-- Mouse events relevant to the callback: left-button-down or anything else. -/
inductive MouseEvent : Type
  | lbuttondown : MouseEvent
  | other : MouseEvent
deriving DecidableEq

/-- The session state of `InteractiveHomography`: the full-resolution source
image and its dimensions, the half-resolution preview and its dimensions, the
clicked preview-space points `corners`, and the mapped source-space points
`original_corners`. -/
structure HState : Type where
  originalImage : Img
  originalWidth : ℕ
  originalHeight : ℕ
  displayWidth : ℕ
  displayHeight : ℕ
  displayImage : Img
  corners : List (ℕ × ℕ)
  originalCorners : List (ℤ × ℤ)

/-- Field `self.scale_factor = 2.0`: the preview-to-source inverse scale multiplier. -/
def scale_factor : ℚ := 2

/-- Constructor `InteractiveHomography.__init__` (after the image load): records the
original size, halves both dimensions with integer floor division for the
preview, and starts with empty corner lists. -/
def initState (img : Img) (w h : ℕ) : HState :=
  { originalImage := img
    originalWidth := w
    originalHeight := h
    displayWidth := w / 2
    displayHeight := h / 2
    displayImage := cvResize img
    corners := []
    originalCorners := [] }

/-- Callback `InteractiveHomography.mouse_callback`: on a left click with fewer than 4
points registered, append the preview-space click, append
`(int(x * scale_factor), int(y * scale_factor))` to the source-space list, and
draw the marker, label and connecting line segments on the preview image.
Otherwise do nothing. -/
def mouse_callback (event : MouseEvent) (x y : ℕ) (s : HState) : HState :=
  if event = MouseEvent.lbuttondown ∧ s.corners.length < 4 then
    let corners' := s.corners ++ [(x, y)]
    let ox : ℤ := pyInt ((x : ℚ) * scale_factor)
    let oy : ℤ := pyInt ((y : ℚ) * scale_factor)
    let originalCorners' := s.originalCorners ++ [(ox, oy)]
    let d1 := cvCircle s.displayImage (x : ℤ) (y : ℤ) 5 green
    let d2 := cvPutText d1 corners'.length ((x : ℤ) + 10) ((y : ℤ) - 10) blue
    let d3 :=
      if 1 < corners'.length then
        cvLine d2
          (((corners'.getD (corners'.length - 2) (0, 0)).1 : ℤ),
            ((corners'.getD (corners'.length - 2) (0, 0)).2 : ℤ))
          ((x : ℤ), (y : ℤ)) red
      else d2
    let d4 :=
      if corners'.length = 4 then
        cvLine d3
          (((corners'.getD 3 (0, 0)).1 : ℤ), ((corners'.getD 3 (0, 0)).2 : ℤ))
          (((corners'.getD 0 (0, 0)).1 : ℤ), ((corners'.getD 0 (0, 0)).2 : ℤ))
          red
      else d3
    { s with corners := corners', originalCorners := originalCorners',
             displayImage := d4 }
  else s

/-- The tail of `InteractiveHomography.select_corners`, after the interactive
wait ends: raise `ValueError` (`IncompleteSelectionError` in the taxonomy of the spec) unless exactly 4 corners were selected, else return the source-space
corner list. -/
def select_corners (s : HState) : Except Err (List (ℤ × ℤ)) :=
  if s.corners.length ≠ 4 then Except.error Err.incompleteSelection
  else Except.ok s.originalCorners

/-- A 3×3 rational matrix, the homography representation. -/
structure M3 : Type where
  m11 : ℚ
  m12 : ℚ
  m13 : ℚ
  m21 : ℚ
  m22 : ℚ
  m23 : ℚ
  m31 : ℚ
  m32 : ℚ
  m33 : ℚ
deriving DecidableEq

/-- Determinant of a 3×3 matrix. -/
def M3.det (m : M3) : ℚ :=
  m.m11 * (m.m22 * m.m33 - m.m23 * m.m32)
    - m.m12 * (m.m21 * m.m33 - m.m23 * m.m31)
    + m.m13 * (m.m21 * m.m32 - m.m22 * m.m31)

/-- Matrix product. -/
def M3.mul (a b : M3) : M3 :=
  ⟨a.m11 * b.m11 + a.m12 * b.m21 + a.m13 * b.m31,
   a.m11 * b.m12 + a.m12 * b.m22 + a.m13 * b.m32,
   a.m11 * b.m13 + a.m12 * b.m23 + a.m13 * b.m33,
   a.m21 * b.m11 + a.m22 * b.m21 + a.m23 * b.m31,
   a.m21 * b.m12 + a.m22 * b.m22 + a.m23 * b.m32,
   a.m21 * b.m13 + a.m22 * b.m23 + a.m23 * b.m33,
   a.m31 * b.m11 + a.m32 * b.m21 + a.m33 * b.m31,
   a.m31 * b.m12 + a.m32 * b.m22 + a.m33 * b.m32,
   a.m31 * b.m13 + a.m32 * b.m23 + a.m33 * b.m33⟩

/-- Adjugate (transpose of cofactors), so that `m * adj m = det m • 1`. -/
def M3.adj (m : M3) : M3 :=
  ⟨m.m22 * m.m33 - m.m23 * m.m32,
   m.m13 * m.m32 - m.m12 * m.m33,
   m.m12 * m.m23 - m.m13 * m.m22,
   m.m23 * m.m31 - m.m21 * m.m33,
   m.m11 * m.m33 - m.m13 * m.m31,
   m.m13 * m.m21 - m.m11 * m.m23,
   m.m21 * m.m32 - m.m22 * m.m31,
   m.m12 * m.m31 - m.m11 * m.m32,
   m.m11 * m.m22 - m.m12 * m.m21⟩

/-- Scalar multiple. -/
def M3.smul (q : ℚ) (m : M3) : M3 :=
  ⟨q * m.m11, q * m.m12, q * m.m13,
   q * m.m21, q * m.m22, q * m.m23,
   q * m.m31, q * m.m32, q * m.m33⟩

/-- The identity matrix. -/
def M3.id : M3 := ⟨1, 0, 0, 0, 1, 0, 0, 0, 1⟩

/-- Apply a matrix to a point in homogeneous coordinates `(x, y, 1)`. -/
def M3.apply (m : M3) (v : ℚ × ℚ) : ℚ × ℚ × ℚ :=
  (m.m11 * v.1 + m.m12 * v.2 + m.m13,
   m.m21 * v.1 + m.m22 * v.2 + m.m23,
   m.m31 * v.1 + m.m32 * v.2 + m.m33)

/-- The matrix whose columns are the homogeneous coordinates of three points. -/
def triMat (p0 p1 p2 : ℚ × ℚ) : M3 :=
  ⟨p0.1, p1.1, p2.1, p0.2, p1.2, p2.2, 1, 1, 1⟩

/-- Modelled from the spec: the canonical projective frame matrix of four
points — a matrix with columns `λᵢ · pᵢ` (homogeneous) sending the standard
projective basis to `p 0, p 1, p 2, p 3`; it exists iff no three of the four
points are collinear, which is the degeneracy condition under which the
four-point homography solve fails. Scale factors are left unnormalised
(Cramer numerators), which changes the matrix only by a global scalar. -/
def canon (p : Fin 4 → ℚ × ℚ) : Option M3 :=
  let d := (triMat (p 0) (p 1) (p 2)).det
  let d1 := (triMat (p 3) (p 1) (p 2)).det
  let d2 := (triMat (p 0) (p 3) (p 2)).det
  let d3 := (triMat (p 0) (p 1) (p 3)).det
  if d = 0 ∨ d1 = 0 ∨ d2 = 0 ∨ d3 = 0 then none
  else
    some ⟨d1 * (p 0).1, d2 * (p 1).1, d3 * (p 2).1,
          d1 * (p 0).2, d2 * (p 1).2, d3 * (p 2).2,
          d1, d2, d3⟩

/-- Modelled from the spec: `cv2.findHomography` on an exact four-point
correspondence — the unique 3×3 projective transform taking each source corner
to its destination counterpart (unique up to scale, normalised so the
bottom-right entry is 1 when possible), or failure when the points are
collinear/degenerate. Computed as `B * adj A` where `A`, `B` are the canonical
frame matrices of the source and destination quadruples. -/
def findHomography (src dst : Fin 4 → ℚ × ℚ) : Option M3 :=
  match canon src, canon dst with
  | some A, some B =>
      let Hr := M3.mul B (M3.adj A)
      some (if Hr.m33 = 0 then Hr else M3.smul (1 / Hr.m33) Hr)
  | _, _ => none

/-- Distance `np.linalg.norm(p - q)`: the Euclidean distance between two points
(float arithmetic idealised as real arithmetic). -/
noncomputable def euclid (p q : ℝ × ℝ) : ℝ :=
  Real.sqrt ((p.1 - q.1) ^ 2 + (p.2 - q.2) ^ 2)

open Classical in
/-- Python `int(r)` on a real: truncation toward zero. -/
noncomputable def pyIntR (r : ℝ) : ℤ := if 0 ≤ r then ⌊r⌋ else -⌊-r⌋

/-- The automatic output-size computation of `InteractiveHomography.transform`
(used when no explicit size is given): `widthA`/`widthB` are the bottom and
top edge lengths, `heightA`/`heightB` the right and left edge lengths, and the
result is `(max(int(widthA), int(widthB)), max(int(heightA), int(heightB)))`. -/
noncomputable def computeOutputSize (corners : Fin 4 → ℝ × ℝ) : ℤ × ℤ :=
  let widthA := euclid (corners 2) (corners 3)
  let widthB := euclid (corners 1) (corners 0)
  let max_width := max (pyIntR widthA) (pyIntR widthB)
  let heightA := euclid (corners 1) (corners 2)
  let heightB := euclid (corners 0) (corners 3)
  let max_height := max (pyIntR heightA) (pyIntR heightB)
  (max_width, max_height)

/-- The stored corner list viewed as four exact points (`np.array(...,
dtype="float32")` idealised as rationals). -/
def cornerAt (l : List (ℤ × ℤ)) (i : Fin 4) : ℚ × ℚ :=
  (((l.getD i (0, 0)).1 : ℚ), ((l.getD i (0, 0)).2 : ℚ))

/-- The destination quadrilateral
`[(0,0), (W-1,0), (W-1,H-1), (0,H-1)]` built by `transform`. -/
def dstQuad (w h : ℤ) : Fin 4 → ℚ × ℚ :=
  fun i =>
    match i with
    | 0 => (0, 0)
    | 1 => ((w : ℚ) - 1, 0)
    | 2 => ((w : ℚ) - 1, (h : ℚ) - 1)
    | 3 => (0, (h : ℚ) - 1)

/-- Modelled from the spec: `cv2.warpPerspective` resamples the source image
through the homography into a freshly allocated `W × H` canvas by inverse
mapping (the inverse taken via the adjugate, which equals the inverse up to
the irrelevant homogeneous scale), filling out-of-range pixels with black.
Nearest sampling stands in for the OpenCV default bilinear interpolation. -/
def warpPerspective (img : Img) (H : M3) (sz : ℤ × ℤ) : Img :=
  fun i j =>
    if 0 ≤ i ∧ i < sz.1 ∧ 0 ≤ j ∧ j < sz.2 then
      let v := M3.apply (M3.adj H) ((i : ℚ), (j : ℚ))
      if v.2.2 = 0 then black
      else img (pyInt (v.1 / v.2.2)) (pyInt (v.2.1 / v.2.2))
    else black

/-- Method `InteractiveHomography.transform`: raise unless 4 source-space corners are
registered; take the output size from the argument or compute it from the
corner geometry; build the destination quadrilateral; solve for the
homography (`cv2.findHomography`) — a degenerate corner set yields no matrix
and the subsequent warp raises (`DegenerateQuadrilateralError` in the taxonomy of the spec); otherwise warp the full-resolution source image and return the
warped image together with the homography. -/
noncomputable def transform (s : HState) (output_size : Option (ℤ × ℤ)) :
    Except Err (Img × M3) :=
  if s.originalCorners.length ≠ 4 then Except.error Err.incompleteSelection
  else
    let corners := cornerAt s.originalCorners
    let sz : ℤ × ℤ :=
      match output_size with
      | none =>
          computeOutputSize fun i => (((corners i).1 : ℝ), ((corners i).2 : ℝ))
      | some wh => wh
    match findHomography corners (dstQuad sz.1 sz.2) with
    | none => Except.error Err.degenerateQuadrilateral
    | some H => Except.ok (warpPerspective s.originalImage H sz, H)

/-- Method `transform` as a state transition: the method reads but never assigns the
session fields, so the state component is returned unchanged. -/
noncomputable def transformS (s : HState) (output_size : Option (ℤ × ℤ)) :
    HState × Except Err (Img × M3) :=
  (s, transform s output_size)

/-- The session states reachable from a fresh `InteractiveHomography` instance
by mouse events. -/
inductive Reachable (img : Img) (w h : ℕ) : HState → Prop
  | init : Reachable img w h (initState img w h)
  | step (e : MouseEvent) (x y : ℕ) (s : HState) :
      Reachable img w h s → Reachable img w h (mouse_callback e x y s)

/-- Four points lie on one line `a*x + b*y + c = 0`. -/
def Collinear4 (p : Fin 4 → ℚ × ℚ) : Prop :=
  ∃ a b c : ℚ, (a ≠ 0 ∨ b ≠ 0) ∧ ∀ i, a * (p i).1 + b * (p i).2 + c = 0

/-- Some three of the four points coincide. -/
def ThreeCoincident (p : Fin 4 → ℚ × ℚ) : Prop :=
  (p 0 = p 1 ∧ p 1 = p 2) ∨ (p 0 = p 1 ∧ p 1 = p 3) ∨
    (p 0 = p 2 ∧ p 2 = p 3) ∨ (p 1 = p 2 ∧ p 2 = p 3)

/-- An all-black test image. -/
def img0 : Img := fun _ _ => black

/-- A session state in which all four corners have been selected. -/
def sFull : HState :=
  { originalImage := img0
    originalWidth := 8
    originalHeight := 8
    displayWidth := 4
    displayHeight := 4
    displayImage := img0
    corners := [(0, 0), (3, 0), (3, 3), (0, 3)]
    originalCorners := [(0, 0), (6, 0), (6, 6), (0, 6)] }

/-- Truncation `pyInt` on a doubled natural number is exact doubling. -/
theorem pyInt_two_mul (x : ℕ) : pyInt ((x : ℚ) * scale_factor) = 2 * (x : ℤ) := by
  have hx : ((x : ℚ)) * scale_factor = ((2 * (x : ℤ) : ℤ) : ℚ) := by
    push_cast [scale_factor]
    ring
  rw [pyInt, if_pos (by rw [hx]; positivity), hx, Int.floor_intCast]

/-- Truncation `pyIntR` of a non-negative real is its floor. -/
theorem pyIntR_eq_floor {r : ℝ} (h : 0 ≤ r) : pyIntR r = ⌊r⌋ := by
  rw [pyIntR, if_pos h]

/-- Edge lengths are non-negative. -/
theorem euclid_nonneg (p q : ℝ × ℝ) : 0 ≤ euclid p q := Real.sqrt_nonneg _

/-- Lemma: `mouse_callback` on a click with room left appends to both point lists. -/
theorem mouse_callback_click (x y : ℕ) (s : HState) (h : s.corners.length < 4) :
    (mouse_callback MouseEvent.lbuttondown x y s).corners = s.corners ++ [(x, y)] ∧
      (mouse_callback MouseEvent.lbuttondown x y s).originalCorners =
        s.originalCorners ++
          [(pyInt ((x : ℚ) * scale_factor), pyInt ((y : ℚ) * scale_factor))] := by
  rw [mouse_callback, if_pos ⟨rfl, h⟩]
  exact ⟨rfl, rfl⟩

/-- C1: every non-negative integer preview-space click `(x, y)` accepted by
`mouse_callback` stores the source-space point
`(floor(x * 2.0), floor(y * 2.0))` — the product is truncated, not rounded. -/
theorem click_stores_truncated_doubled_point (s : HState) (x y : ℕ)
    (h : s.corners.length < 4) :
    (mouse_callback MouseEvent.lbuttondown x y s).originalCorners =
      s.originalCorners ++
        [(⌊(x : ℚ) * scale_factor⌋, ⌊(y : ℚ) * scale_factor⌋)] := by
  rw [(mouse_callback_click x y s h).2]
  have hx : (0 : ℚ) ≤ (x : ℚ) * scale_factor := by
    rw [scale_factor]
    positivity
  have hy : (0 : ℚ) ≤ (y : ℚ) * scale_factor := by
    rw [scale_factor]
    positivity
  rw [pyInt, if_pos hx, pyInt, if_pos hy]

/-- C1 witness: a preview click at `(50, 80)` maps to exactly `(100, 160)`. -/
theorem click_stores_truncated_doubled_point_witness :
    (mouse_callback MouseEvent.lbuttondown 50 80 (initState img0 400 300)).originalCorners
      = [(100, 160)] := by
  rw [click_stores_truncated_doubled_point (initState img0 400 300) 50 80 (by decide)]
  norm_num [initState, scale_factor]

/-- C5: a click arriving when 4 points are already registered is silently
ignored — the whole state, in particular both point lists, is unchanged. -/
theorem fifth_click_ignored (e : MouseEvent) (x y : ℕ) (s : HState)
    (h : 4 ≤ s.corners.length) : mouse_callback e x y s = s := by
  rw [mouse_callback, if_neg]
  rintro ⟨-, hlt⟩
  omega

/-- C5 witness: a 5th click on a session with 4 registered points changes
nothing. -/
theorem fifth_click_ignored_witness :
    mouse_callback MouseEvent.lbuttondown 1 1 sFull = sFull :=
  fifth_click_ignored MouseEvent.lbuttondown 1 1 sFull (by decide)

/-- C10: invoking `transform` with fewer than 4 registered source-space
corners raises (`IncompleteSelectionError`) and leaves the session state
unchanged; no warped image or homography is produced. -/
theorem transform_incomplete_raises (s : HState) (os : Option (ℤ × ℤ))
    (h : s.originalCorners.length < 4) :
    transformS s os = (s, Except.error Err.incompleteSelection) := by
  rw [transformS, transform, if_pos (by omega)]

/-- C10 witness: `transform` on a fresh session with no clicks errors out with
the state intact. -/
theorem transform_incomplete_raises_witness :
    transformS (initState img0 8 8) none =
      (initState img0 8 8, Except.error Err.incompleteSelection) :=
  transform_incomplete_raises (initState img0 8 8) none (by decide)

/-- C8: only the preview buffer is mutated — `mouse_callback` leaves the
full-resolution source image (and the recorded dimensions) untouched, and
`transform` leaves the entire session state unchanged, returning a fresh
output buffer resampled from the source. -/
theorem source_image_never_mutated (e : MouseEvent) (x y : ℕ) (s : HState)
    (os : Option (ℤ × ℤ)) :
    (mouse_callback e x y s).originalImage = s.originalImage ∧
      (mouse_callback e x y s).originalWidth = s.originalWidth ∧
      (mouse_callback e x y s).originalHeight = s.originalHeight ∧
      (mouse_callback e x y s).displayWidth = s.displayWidth ∧
      (mouse_callback e x y s).displayHeight = s.displayHeight ∧
      (transformS s os).1 = s ∧
      (∀ i H, transform s os = Except.ok (i, H) →
        ∃ sz, i = warpPerspective s.originalImage H sz) := by
  refine ⟨?_, ?_, ?_, ?_, ?_, rfl, ?_⟩
  · rw [mouse_callback]; split <;> rfl
  · rw [mouse_callback]; split <;> rfl
  · rw [mouse_callback]; split <;> rfl
  · rw [mouse_callback]; split <;> rfl
  · rw [mouse_callback]; split <;> rfl
  intro i H hok
  rw [transform] at hok
  split at hok
  · exact Except.noConfusion hok
  · split at hok
    · dsimp only at hok
      split at hok
      · exact Except.noConfusion hok
      · simp only [Except.ok.injEq, Prod.mk.injEq] at hok
        obtain ⟨hi, hH⟩ := hok
        subst hH
        exact ⟨_, hi.symm⟩
    · dsimp only at hok
      split at hok
      · exact Except.noConfusion hok
      · simp only [Except.ok.injEq, Prod.mk.injEq] at hok
        obtain ⟨hi, hH⟩ := hok
        subst hH
        exact ⟨_, hi.symm⟩

/-- C8 witness: a click leaves the source image of a full session untouched,
`transform` passes the state through unchanged, and the produced image is a
resampling of the (unmodified) source into a fresh buffer. -/
theorem source_image_never_mutated_witness :
    (mouse_callback MouseEvent.lbuttondown 1 2 sFull).originalImage =
        sFull.originalImage ∧
      (transformS sFull (some (7, 7))).1 = sFull ∧
      ∃ sz, warpPerspective sFull.originalImage M3.id (7, 7) =
        warpPerspective sFull.originalImage M3.id sz := by
  have h := source_image_never_mutated MouseEvent.lbuttondown 1 2 sFull (some (7, 7))
  have hfh : findHomography (cornerAt sFull.originalCorners) (dstQuad 7 7) =
      some M3.id := by
    norm_num [findHomography, canon, cornerAt, sFull, dstQuad, triMat, M3.det,
      M3.mul, M3.adj, M3.smul, M3.id, List.getD,
      show ((0 : Fin 4) : ℕ) = 0 from rfl, show ((1 : Fin 4) : ℕ) = 1 from rfl,
      show ((2 : Fin 4) : ℕ) = 2 from rfl, show ((3 : Fin 4) : ℕ) = 3 from rfl]
  have hok : transform sFull (some (7, 7)) =
      Except.ok (warpPerspective sFull.originalImage M3.id (7, 7), M3.id) := by
    rw [transform, if_neg (by decide)]
    dsimp only
    rw [hfh]
  exact ⟨h.1, h.2.2.2.2.2.1, h.2.2.2.2.2.2 _ M3.id hok⟩

/-- C7: `computeOutputSize` is invariant under uniform translation of all
four corners. -/
theorem output_size_translation_invariant (c : Fin 4 → ℝ × ℝ) (t : ℝ × ℝ) :
    computeOutputSize (fun i => ((c i).1 + t.1, (c i).2 + t.2)) =
      computeOutputSize c := by
  have he : ∀ p q : ℝ × ℝ,
      euclid (p.1 + t.1, p.2 + t.2) (q.1 + t.1, q.2 + t.2) = euclid p q := by
    intro p q
    rw [euclid, euclid]
    congr 1
    ring
  rw [computeOutputSize, computeOutputSize]
  simp only [he]

/-- C2: `computeOutputSize` returns the floors of the maxima of the opposing
Euclidean edge lengths (`W` from the bottom/top edges, `H` from the
right/left edges); in particular edge lengths 80 (top), 100 (bottom),
120 (left) and 130 (right) yield `(100, 130)`. -/
theorem output_size_is_floor_of_max_edges (c : Fin 4 → ℝ × ℝ) :
    computeOutputSize c =
      (⌊max (euclid (c 2) (c 3)) (euclid (c 1) (c 0))⌋,
        ⌊max (euclid (c 1) (c 2)) (euclid (c 0) (c 3))⌋) ∧
      (euclid (c 1) (c 0) = 80 → euclid (c 2) (c 3) = 100 →
        euclid (c 0) (c 3) = 120 → euclid (c 1) (c 2) = 130 →
        computeOutputSize c = (100, 130)) := by
  have hmain : computeOutputSize c =
      (⌊max (euclid (c 2) (c 3)) (euclid (c 1) (c 0))⌋,
        ⌊max (euclid (c 1) (c 2)) (euclid (c 0) (c 3))⌋) := by
    rw [computeOutputSize]
    rw [pyIntR_eq_floor (euclid_nonneg _ _), pyIntR_eq_floor (euclid_nonneg _ _),
      pyIntR_eq_floor (euclid_nonneg _ _), pyIntR_eq_floor (euclid_nonneg _ _),
      ← Int.floor_mono.map_max, ← Int.floor_mono.map_max]
  refine ⟨hmain, fun h80 h100 h120 h130 => ?_⟩
  rw [hmain, h80, h100, h120, h130]
  norm_num

/-- The trapezoid of the C2 scenario: top edge 80, bottom edge 100, left edge
120, right edge 130.  Its shape is rigid, which forces the irrational height
`45·√23 / 2`. -/
noncomputable def trap : Fin 4 → ℝ × ℝ :=
  fun i =>
    match i with
    | 0 => (0, 0)
    | 1 => (80, 0)
    | 2 => (305 / 2, 45 * Real.sqrt 23 / 2)
    | 3 => (105 / 2, 45 * Real.sqrt 23 / 2)

/-- Evaluate a square root at an exact square. -/
theorem sqrt_val {a b : ℝ} (hb : 0 ≤ b) (h : a = b ^ 2) : Real.sqrt a = b := by
  rw [h]
  exact Real.sqrt_sq hb

/-- C2 witness: on the 80/100/120/130 trapezoid the output size is exactly
`(100, 130)`. -/
theorem output_size_is_floor_of_max_edges_witness :
    computeOutputSize trap = (100, 130) := by
  have h23 : Real.sqrt 23 ^ 2 = 23 := Real.sq_sqrt (by norm_num)
  have h80 : euclid (trap 1) (trap 0) = 80 := by
    rw [euclid]
    exact sqrt_val (by norm_num) (by norm_num [trap])
  have h100 : euclid (trap 2) (trap 3) = 100 := by
    rw [euclid]
    refine sqrt_val (by norm_num) ?_
    show ((305 / 2 : ℝ) - 105 / 2) ^ 2 +
        (45 * Real.sqrt 23 / 2 - 45 * Real.sqrt 23 / 2) ^ 2 = 100 ^ 2
    ring
  have h120 : euclid (trap 0) (trap 3) = 120 := by
    rw [euclid]
    refine sqrt_val (by norm_num) ?_
    show ((0 : ℝ) - 105 / 2) ^ 2 + (0 - 45 * Real.sqrt 23 / 2) ^ 2 = 120 ^ 2
    linear_combination (2025 / 4 : ℝ) * h23
  have h130 : euclid (trap 1) (trap 2) = 130 := by
    rw [euclid]
    refine sqrt_val (by norm_num) ?_
    show ((80 : ℝ) - 305 / 2) ^ 2 + (0 - 45 * Real.sqrt 23 / 2) ^ 2 = 130 ^ 2
    linear_combination (2025 / 4 : ℝ) * h23
  exact (output_size_is_floor_of_max_edges trap).2 h80 h100 h120 h130

/-- Along any reachable session state, both point lists have the same length,
and never more than 4 entries. -/
theorem reachable_lengths {img : Img} {w h : ℕ} {s : HState}
    (hr : Reachable img w h s) :
    s.originalCorners.length = s.corners.length ∧ s.corners.length ≤ 4 := by
  induction hr with
  | init => exact ⟨rfl, by simp [initState]⟩
  | step e x y s hs ih =>
      rw [mouse_callback]
      split
      · rename_i hcond
        simp only [List.length_append, List.length_singleton]
        omega
      · exact ih

/-- C3: ending the interactive session with fewer than 4 registered points
raises `IncompleteSelectionError`; with exactly 4 it returns the source-space
corner list — of length 4, in click order — as the Corner Set. -/
theorem finalize_requires_four_corners {img : Img} {w h : ℕ} (s : HState)
    (hr : Reachable img w h s) :
    (s.corners.length < 4 →
      select_corners s = Except.error Err.incompleteSelection) ∧
      (s.corners.length = 4 →
        select_corners s = Except.ok s.originalCorners ∧
          s.originalCorners.length = 4) := by
  constructor
  · intro hlt
    rw [select_corners, if_pos (by omega)]
  · intro heq
    rw [select_corners, if_neg (by omega)]
    exact ⟨rfl, by rw [(reachable_lengths hr).1, heq]⟩

/-- C3 witness: a session ended after 3 clicks errors out, one ended after 4
clicks returns the 4 mapped corners in click order. -/
theorem finalize_requires_four_corners_witness :
    select_corners
        (mouse_callback MouseEvent.lbuttondown 2 3
          (mouse_callback MouseEvent.lbuttondown 1 2
            (mouse_callback MouseEvent.lbuttondown 0 1 (initState img0 8 8)))) =
      Except.error Err.incompleteSelection ∧
      select_corners
          (mouse_callback MouseEvent.lbuttondown 0 3
            (mouse_callback MouseEvent.lbuttondown 3 3
              (mouse_callback MouseEvent.lbuttondown 3 0
                (mouse_callback MouseEvent.lbuttondown 0 0 (initState img0 8 8))))) =
        Except.ok [(0, 0), (6, 0), (6, 6), (0, 6)] := by
  constructor
  · exact (finalize_requires_four_corners _
      (Reachable.step MouseEvent.lbuttondown 2 3 _
        (Reachable.step MouseEvent.lbuttondown 1 2 _
          (Reachable.step MouseEvent.lbuttondown 0 1 _ Reachable.init)))).1
      (by decide)
  · have h := (finalize_requires_four_corners _
      (Reachable.step MouseEvent.lbuttondown 0 3 _
        (Reachable.step MouseEvent.lbuttondown 3 3 _
          (Reachable.step MouseEvent.lbuttondown 3 0 _
            (Reachable.step MouseEvent.lbuttondown 0 0 _
              (Reachable.init :
                Reachable img0 8 8 (initState img0 8 8))))))).2 (by decide)
    rw [h.1]
    norm_num [mouse_callback, initState, scale_factor, pyInt]

/-- C9: since the preview dimensions are the floor-halved source dimensions
and the inverse scale is exactly 2.0, every stored source-space coordinate is
even, and an in-bounds preview click never reaches past
`original_width - 2` / `original_height - 2`. -/
theorem mapped_corner_even_and_in_bounds (w h x y : ℕ) (s : HState)
    (hw : s.displayWidth = w / 2) (hh : s.displayHeight = h / 2)
    (hlen : s.corners.length < 4)
    (hx : x < s.displayWidth) (hy : y < s.displayHeight) :
    (mouse_callback MouseEvent.lbuttondown x y s).originalCorners =
      s.originalCorners ++ [(2 * (x : ℤ), 2 * (y : ℤ))] ∧
      (2 * (x : ℤ)) % 2 = 0 ∧ (2 * (y : ℤ)) % 2 = 0 ∧
      2 * (x : ℤ) ≤ (w : ℤ) - 2 ∧ 2 * (y : ℤ) ≤ (h : ℤ) - 2 := by
  refine ⟨?_, by omega, by omega, ?_, ?_⟩
  · rw [(mouse_callback_click x y s hlen).2, pyInt_two_mul, pyInt_two_mul]
  · rw [hw] at hx
    omega
  · rw [hh] at hy
    omega

/-- C9 witness: clicking the bottom-right preview pixel of a 9×7 source image
stores the even point `(6, 4)`, within `(width-2, height-2)`. -/
theorem mapped_corner_even_and_in_bounds_witness :
    (mouse_callback MouseEvent.lbuttondown 3 2 (initState img0 9 7)).originalCorners =
      [(6, 4)] ∧ (6 : ℤ) % 2 = 0 ∧ (4 : ℤ) % 2 = 0 ∧
      (6 : ℤ) ≤ (9 : ℤ) - 2 ∧ (4 : ℤ) ≤ (7 : ℤ) - 2 := by
  have h := mapped_corner_even_and_in_bounds 9 7 3 2 (initState img0 9 7)
    (by decide) (by decide) (by decide) (by decide) (by decide)
  exact ⟨h.1, by decide, by decide, by decide, by decide⟩

/-- The determinant of the homogeneous column matrix of three points. -/
theorem det_tri_formula (p0 p1 p2 : ℚ × ℚ) :
    (triMat p0 p1 p2).det =
      p0.1 * (p1.2 - p2.2) - p1.1 * (p0.2 - p2.2) + p2.1 * (p0.2 - p1.2) := by
  simp only [triMat, M3.det]
  ring

/-- Three points on one line have a vanishing homogeneous determinant. -/
theorem line_det_zero (x0 y0 x1 y1 x2 y2 a b c : ℚ) (hab : a ≠ 0 ∨ b ≠ 0)
    (h0 : a * x0 + b * y0 + c = 0) (h1 : a * x1 + b * y1 + c = 0)
    (h2 : a * x2 + b * y2 + c = 0) :
    x0 * (y1 - y2) - x1 * (y0 - y2) + x2 * (y0 - y1) = 0 := by
  rcases hab with ha | hb
  · have key : a * (x0 * (y1 - y2) - x1 * (y0 - y2) + x2 * (y0 - y1)) = 0 := by
      linear_combination (y1 - y2) * h0 + (y2 - y0) * h1 + (y0 - y1) * h2
    exact (mul_eq_zero.mp key).resolve_left ha
  · have key : b * (x0 * (y1 - y2) - x1 * (y0 - y2) + x2 * (y0 - y1)) = 0 := by
      linear_combination (x2 - x1) * h0 + (x0 - x2) * h1 + (x1 - x0) * h2
    exact (mul_eq_zero.mp key).resolve_left hb

/-- Four collinear corners force a degenerate first triple. -/
theorem collinear_det_zero {p : Fin 4 → ℚ × ℚ} (hc : Collinear4 p) :
    (triMat (p 0) (p 1) (p 2)).det = 0 := by
  obtain ⟨a, b, c, hab, hl⟩ := hc
  rw [det_tri_formula]
  exact line_det_zero _ _ _ _ _ _ a b c hab (hl 0) (hl 1) (hl 2)

/-- Any three coincident corners force a degenerate first triple. -/
theorem coincident_det_zero {p : Fin 4 → ℚ × ℚ} (hc : ThreeCoincident p) :
    (triMat (p 0) (p 1) (p 2)).det = 0 := by
  rw [det_tri_formula]
  rcases hc with ⟨h, -⟩ | ⟨h, -⟩ | ⟨h, -⟩ | ⟨h, -⟩ <;> rw [h] <;> ring

/-- A degenerate first triple makes the canonical frame matrix fail. -/
theorem canon_none_of_det {p : Fin 4 → ℚ × ℚ}
    (h : (triMat (p 0) (p 1) (p 2)).det = 0) : canon p = none := by
  simp only [canon]
  rw [if_pos (Or.inl h)]

/-- A degenerate source quadruple makes the homography solve fail for every
destination quadruple. -/
theorem findHomography_none_left {src : Fin 4 → ℚ × ℚ}
    (h : canon src = none) (dst : Fin 4 → ℚ × ℚ) :
    findHomography src dst = none := by
  rcases hd : canon dst with - | B <;> simp [findHomography, h, hd]

/-- C4: on a corner set whose four points are collinear, or in which some
three points coincide, `transform` raises (`DegenerateQuadrilateralError`) —
the homography solve fails and no warped output is produced. -/
theorem degenerate_corner_set_raises (s : HState) (os : Option (ℤ × ℤ))
    (h4 : s.originalCorners.length = 4)
    (hdeg : Collinear4 (cornerAt s.originalCorners) ∨
      ThreeCoincident (cornerAt s.originalCorners)) :
    transform s os = Except.error Err.degenerateQuadrilateral := by
  have hdet : (triMat (cornerAt s.originalCorners 0) (cornerAt s.originalCorners 1)
      (cornerAt s.originalCorners 2)).det = 0 := by
    rcases hdeg with hcol | hco
    · exact collinear_det_zero hcol
    · exact coincident_det_zero hco
  have hnone := findHomography_none_left (canon_none_of_det hdet)
  rw [transform, if_neg (by omega)]
  cases os <;> dsimp only <;> rw [hnone]

/-- A session state whose four registered corners are collinear. -/
def sColl : HState :=
  { originalImage := img0
    originalWidth := 64
    originalHeight := 64
    displayWidth := 32
    displayHeight := 32
    displayImage := img0
    corners := [(0, 0), (5, 0), (10, 0), (15, 0)]
    originalCorners := [(0, 0), (10, 0), (20, 0), (30, 0)] }

/-- C4 witness: the collinear corner set `[(0,0),(10,0),(20,0),(30,0)]`
raises `DegenerateQuadrilateralError`. -/
theorem degenerate_corner_set_raises_witness :
    transform sColl none = Except.error Err.degenerateQuadrilateral := by
  refine degenerate_corner_set_raises sColl none (by decide)
    (Or.inl ⟨0, 1, 0, Or.inr one_ne_zero, ?_⟩)
  intro i
  fin_cases i <;> norm_num [cornerAt, sColl, List.getD]

/-- The session state of the identity scenario: corners
`[(0,0),(99,0),(99,99),(0,99)]`. -/
def s99 : HState :=
  { originalImage := img0
    originalWidth := 200
    originalHeight := 200
    displayWidth := 100
    displayHeight := 100
    displayImage := img0
    corners := [(0, 0), (49, 0), (49, 49), (0, 49)]
    originalCorners := [(0, 0), (99, 0), (99, 99), (0, 99)] }

/-- C6: `transform` builds the destination quadrilateral
`[(0,0), (W-1,0), (W-1,H-1), (0,H-1)]`, and on the corner set
`[(0,0),(99,0),(99,99),(0,99)]` with output size `(100,100)` the computed
homography is exactly the identity matrix. -/
theorem dst_quad_and_identity_homography :
    (∀ w h : ℤ, dstQuad w h 0 = (0, 0) ∧ dstQuad w h 1 = ((w : ℚ) - 1, 0) ∧
        dstQuad w h 2 = ((w : ℚ) - 1, (h : ℚ) - 1) ∧
        dstQuad w h 3 = (0, (h : ℚ) - 1)) ∧
      transform s99 (some (100, 100)) =
        Except.ok (warpPerspective s99.originalImage M3.id (100, 100), M3.id) := by
  refine ⟨fun w h => ⟨rfl, rfl, rfl, rfl⟩, ?_⟩
  have hfh : findHomography (cornerAt s99.originalCorners) (dstQuad 100 100) =
      some M3.id := by
    norm_num [findHomography, canon, cornerAt, s99, dstQuad, triMat, M3.det,
      M3.mul, M3.adj, M3.smul, M3.id, List.getD,
      show ((0 : Fin 4) : ℕ) = 0 from rfl, show ((1 : Fin 4) : ℕ) = 1 from rfl,
      show ((2 : Fin 4) : ℕ) = 2 from rfl, show ((3 : Fin 4) : ℕ) = 3 from rfl]
  rw [transform, if_neg (by decide)]
  dsimp only
  rw [hfh]
